import Mathlib

/-!
# Type-level metaprogramming kit of `folly.cpp`

All computation in `folly.cpp` happens during template instantiation.  The
embedding therefore reifies C++ types as terms of an inductive type `Ty`, and
models "naming `Fn::template apply<Ts...>`" as a function returning
`Option Ty`: `some r` when the alias is well-formed and denotes `r`, `none`
when it is ill-formed.
-/

namespace folly
namespace detail

/-- The templates that can be bound to a `template <class...> class C`
parameter: class templates declared in the file, and any other class or alias
template, referred to by name; what `n<Ts...>` denotes for a named template is
given by the environment, so the results below hold for every such template. -/
inductive Tmpl where
  | TypeList
  | Cons
  | MetaFlip
  | FoldL_
  | named (n : String)

/-- Reified types.  Every class or class-template specialisation declared in
`folly.cpp` has a constructor; `prim`/`ptr` are the built-in types used by
`main`, and `user n ts` is a specialisation `n<ts...>` of a user-declared
class template (a plain class when `ts = []`). -/
inductive Ty where
  | prim (n : String)
  | ptr (t : Ty)
  | TypeList (ts : List Ty)
  | Empty
  | If_ (b : Bool)
  | MetaDefer (c : Tmpl) (ts : List Ty)
  | Result (c : Tmpl) (ts : List Ty)
  | MetaIdentity
  | MetaQuote (c : Tmpl)
  | MetaFlip (fn : Ty)
  | FoldL_ (fn : Ty)
  | Lambda (fn : Ty) (ts : List Ty)
  | Cons (car cdr : Ty)
  | user (n : String) (ts : List Ty)

/-- The declarations surrounding the kit: what user-declared templates and
classes denote.  `none` always means "ill-formed". -/
structure Env where
  /-- Meaning of `n<Ts...>` for a user-declared class or alias template `n`. -/
  tmpl : String → List Ty → Option Ty
  /-- Meaning of `n<Ts...>::template apply<Us...>` for a user class. -/
  apply : String → List Ty → List Ty → Option Ty
  /-- Meaning of `n<Ts...>::type` for a user class. -/
  type : String → List Ty → Option Ty

/-- The alias `using Nil = Empty;` of `main`. -/
def Nil : Ty := .Empty

/-- The template-id `C<Ts...>`: the type it names, or `none` when it is
ill-formed.  `TypeList` is variadic; `Cons` takes one or two types, the second
defaulting to `Nil`; `MetaFlip` and `FoldL_` take exactly one type. -/
def instantiate (env : Env) : Tmpl → List Ty → Option Ty
  | .TypeList, ts => some (.TypeList ts)
  | .Cons, [car] => some (.Cons car Nil)
  | .Cons, [car, cdr] => some (.Cons car cdr)
  | .Cons, _ => none
  | .MetaFlip, [fn] => some (.MetaFlip fn)
  | .MetaFlip, _ => none
  | .FoldL_, [fn] => some (.FoldL_ fn)
  | .FoldL_, _ => none
  | .named n, ts => env.tmpl n ts

/-- The alias `_t<T>`, i.e. `typename T::type`.  Among the classes of the file only
`TypeList` (`using type = TypeList;`) and `MetaDefer<C, Ts...>::Result`
(`using type = C<Ts...>;`) declare a member `type`. -/
def _t (env : Env) : Ty → Option Ty
  | .TypeList ts => some (.TypeList ts)
  | .Result c ts => instantiate env c ts
  | .user n ts => env.type n ts
  | _ => none

/-- The value of `sizeof(try_(0))` inside `MetaDefer<C, Ts...>`: overload `try_(int)` is
viable exactly when its default template argument `D<Ts...>` is well-formed
and then wins (it returns `char(&)[1]`); otherwise `try_(long)` is selected
(it returns `char(&)[2]`). -/
def try_ (env : Env) (c : Tmpl) (ts : List Ty) : Nat :=
  if (instantiate env c ts).isSome then 1 else 2

mutual
/-- Number of constructors in a reified type. -/
def Ty.size : Ty → Nat
  | .ptr t => t.size + 1
  | .TypeList ts => sizeList ts + 1
  | .MetaDefer _ ts => sizeList ts + 1
  | .Result _ ts => sizeList ts + 1
  | .MetaFlip fn => fn.size + 1
  | .FoldL_ fn => fn.size + 1
  | .Lambda fn ts => fn.size + sizeList ts + 1
  | .Cons car cdr => car.size + cdr.size + 1
  | .user _ ts => sizeList ts + 1
  | _ => 1
/-- Number of constructors in a list of reified types. -/
def sizeList : List Ty → Nat
  | [] => 0
  | t :: ts => t.size + sizeList ts + 1
end

/-- Termination measure for `MetaApply`: the size of the metafunction class,
plus the size of the argument when a `TypeList` is about to hand control to
its single argument. -/
def rank : Ty → List Ty → Nat
  | .TypeList ts, [fn] => sizeList ts + fn.size + 4
  | .If_ _, _ => 0
  | .MetaDefer _ _, _ => 1
  | .MetaQuote _, _ => 2
  | fn, _ => fn.size + 3

/-- The alias `MetaApply<Fn, Ts...>`, i.e. `typename Fn::template apply<Ts...>`,
by cases on the class `Fn`; each case is the member `apply` of that class. -/
def MetaApply (env : Env) : Ty → List Ty → Option Ty
  -- TypeList<Ts...>: template <class Fn> using apply = MetaApply<Fn, Ts...>;
  | .TypeList ts, [fn] => MetaApply env fn ts
  -- impl::If_<false>: template <class T, class U> using apply = U;
  | .If_ false, [_, u] => some u
  -- impl::If_<B>: template <class T, class U> using apply = T;
  | .If_ true, [t, _] => some t
  -- MetaDefer<C, Ts...>: template <class... Us>
  --   using apply = _t<If<sizeof(try_(0)) - 1 || sizeof...(Us), Empty, Result>>;
  | .MetaDefer c ts, us =>
      (MetaApply env (.If_ (decide (try_ env c ts - 1 ≠ 0) || decide (us.length ≠ 0)))
        [.Empty, .Result c ts]).bind (_t env)
  -- MetaIdentity: template <class T> using apply = T;
  | .MetaIdentity, [t] => some t
  -- MetaQuote<TypeList>: template <class... Ts> using apply = TypeList<Ts...>;
  | .MetaQuote .TypeList, ts => some (.TypeList ts)
  -- MetaQuote<C>: template <class... Ts> using apply = MetaApply<MetaDefer<C, Ts...>>;
  | .MetaQuote c, ts => MetaApply env (.MetaDefer c ts) []
  -- MetaFlip<Fn>: template <class A, class B> using apply = MetaApply<Fn, B, A>;
  | .MetaFlip fn, [a, b] => MetaApply env fn [b, a]
  -- FoldL_<Fn>: template <class... Ts> using apply = Lambda<Ts...>;
  | .FoldL_ fn, ts => some (.Lambda fn ts)
  -- Lambda<A, B, C, D, Ts...>: manually unroll 4 elements
  | .Lambda fn (a :: b :: c :: d :: ts), [state] =>
      (MetaApply env fn [state, a]).bind fun s1 =>
      (MetaApply env fn [s1, b]).bind fun s2 =>
      (MetaApply env fn [s2, c]).bind fun s3 =>
      (MetaApply env fn [s3, d]).bind fun s4 =>
      MetaApply env (.Lambda fn ts) [s4]
  -- Lambda<A, Ts...>
  | .Lambda fn (a :: ts), [state] =>
      (MetaApply env fn [state, a]).bind fun s1 =>
      MetaApply env (.Lambda fn ts) [s1]
  -- Lambda<Ts...> : MetaIdentity
  | .Lambda _ [], args => MetaApply env .MetaIdentity args
  | .user n ts, args => env.apply n ts args
  | _, _ => none
termination_by fn args => rank fn args
decreasing_by
  all_goals simp_wf
  all_goals
    have size_pos : ∀ t : Ty, 0 < t.size := fun t => by cases t <;> simp [Ty.size]
    have rank_le : ∀ (f : Ty) (l : List Ty), rank f l ≤ f.size + sizeList l + 3 := by
      intro f l
      unfold rank
      split
      all_goals simp [Ty.size, sizeList]
      all_goals omega
    have rank_two : ∀ f x y : Ty, rank f [x, y] ≤ f.size + 3 := by
      intro f x y
      unfold rank
      split
      all_goals simp_all [Ty.size]
    have rank_Lambda : ∀ (f : Ty) (l l2 : List Ty),
        rank (.Lambda f l) l2 = f.size + sizeList l + 4 := by
      intro f l _
      simp [rank, Ty.size]
    first
    | (have h := rank_le fn ts
       have h2 : rank (.TypeList ts) [fn] = sizeList ts + fn.size + 4 := by simp [rank]
       omega)
    | (have h := rank_two fn b a
       have h2 : rank (.MetaFlip fn) [a, b] = fn.size + 4 := by simp [rank, Ty.size]
       omega)
    | (have h := rank_two fn state a
       rw [rank_Lambda]
       omega)
    | (have h := rank_two fn s1 b
       rw [rank_Lambda]
       omega)
    | (have h := rank_two fn s2 c
       rw [rank_Lambda]
       omega)
    | (have h := rank_two fn s3 d
       rw [rank_Lambda]
       omega)
    | (rename_i f
       have h := size_pos f
       have h2 : rank .MetaIdentity args = 4 := by simp [rank, Ty.size]
       rw [rank_Lambda, h2]
       omega)
    | (simp only [rank_Lambda, sizeList]; omega)
    | simp [rank]

/-- The alias `If<If_, Then, Else>` is `MetaApply<impl::If_<If_>, Then, Else>`. -/
def If (env : Env) (b : Bool) (t e : Ty) : Option Ty :=
  MetaApply env (.If_ b) [t, e]

/-- The alias `TypeReverseFold<List, State, Fn>` is
`MetaApply<MetaApply<List, impl::FoldL_<Fn>>, State>`. -/
def TypeReverseFold (env : Env) (list state fn : Ty) : Option Ty :=
  (MetaApply env list [.FoldL_ fn]).bind fun lam => MetaApply env lam [state]

/-- The naive one-element-at-a-time fold of the specification: `Lambda`
restricted to the empty case (the state is returned unchanged) and the
single-element case `Lambda<A, Ts...>` (apply `Fn` to the state and `A`, then
continue with `Ts...`). -/
def naiveFold (env : Env) (fn : Ty) : List Ty → Ty → Option Ty
  | [], state => some state
  | a :: ts, state => (MetaApply env fn [state, a]).bind fun s1 => naiveFold env fn ts s1

/-- One application of the binary metafunction `fn` to the state and an element. -/
def step (env : Env) (fn : Ty) (state a : Ty) : Option Ty :=
  MetaApply env fn [state, a]

/-- The chain `Cons<e0, Cons<e1, ... Cons<e_{n-1}, Nil>>>` of a list of types. -/
def consChain : List Ty → Ty
  | [] => Nil
  | e :: es => .Cons e (consChain es)

/-- A translation unit with no user-declared templates or classes. -/
def Env.empty : Env where
  tmpl := fun _ _ => none
  apply := fun _ _ _ => none
  type := fun _ _ => none

/-- The three declarations of `FoldL_<Fn>::Lambda`: the primary template
`Lambda<Ts...> : MetaIdentity`, the partial specialisation `Lambda<A, Ts...>`
and the partial specialisation `Lambda<A, B, C, D, Ts...>`. -/
inductive LambdaCase where
  | primary
  | single
  | unrolled
  deriving DecidableEq

/-- Which declaration the template-id `Lambda<Ts...>` selects: the most
specialised one whose pattern matches the pack, so `Lambda<A, B, C, D, Ts...>`
for four or more types, `Lambda<A, Ts...>` for one to three, and the primary
template for none. -/
def LambdaSelect : List Ty → LambdaCase
  | _ :: _ :: _ :: _ :: _ => .unrolled
  | _ :: _ => .single
  | [] => .primary

/-- The declarations selected, in order, while `Lambda<Ts...>::apply<State>`
is resolved: the unrolled specialisation continues with `Lambda<Ts...>` for
the pack after `A, B, C, D`, the single-element specialisation with
`Lambda<Ts...>` for the pack after `A`, and the primary template ends the
recursion. -/
def LambdaTrace : List Ty → List LambdaCase
  | _ :: _ :: _ :: _ :: ts => .unrolled :: LambdaTrace ts
  | _ :: ts => .single :: LambdaTrace ts
  | [] => [.primary]

/-- The resolution of `Lambda<Ts...>::apply<State>` inside `FoldL_<Fn>`,
instrumented: next to the resulting type it returns, in order, every `Lambda`
declaration whose member `apply` is resolved, each with `sizeof...` of the
pack of the specialisation it belongs to.  The three cases are the three
declarations of `Lambda`, with the bodies of their `apply` members; the
applications of `Fn` are those of `MetaApply`. -/
def LambdaApplyTraced (env : Env) (fn : Ty) :
    List Ty → Ty → Option (Ty × List (LambdaCase × Nat))
  -- Lambda<A, B, C, D, Ts...>: manually unroll 4 elements
  | a :: b :: c :: d :: ts, state =>
      (MetaApply env fn [state, a]).bind fun s1 =>
      (MetaApply env fn [s1, b]).bind fun s2 =>
      (MetaApply env fn [s2, c]).bind fun s3 =>
      (MetaApply env fn [s3, d]).bind fun s4 =>
      (LambdaApplyTraced env fn ts s4).map fun p =>
        (p.1, (LambdaCase.unrolled, ts.length + 4) :: p.2)
  -- Lambda<A, Ts...>
  | a :: ts, state =>
      (MetaApply env fn [state, a]).bind fun s1 =>
      (LambdaApplyTraced env fn ts s1).map fun p =>
        (p.1, (LambdaCase.single, ts.length + 1) :: p.2)
  -- Lambda<Ts...> : MetaIdentity
  | [], state =>
      (MetaApply env .MetaIdentity [state]).map fun r => (r, [(LambdaCase.primary, 0)])

/-- The declarations of `Lambda` reached from `Lambda<Ts...>`, each with the
size of its pack: the events `LambdaApplyTraced` emits when every application
of `Fn` is well-formed. -/
def LambdaEvents : List Ty → List (LambdaCase × Nat)
  | _ :: _ :: _ :: _ :: ts => (.unrolled, ts.length + 4) :: LambdaEvents ts
  | _ :: ts => (.single, ts.length + 1) :: LambdaEvents ts
  | [] => [(.primary, 0)]

/-- A translation unit whose only user declaration is the alias template
`template <class...> using AlwaysEmpty = Empty;`. -/
def Env.aliasEmpty : Env where
  tmpl := fun n _ => if n = "AlwaysEmpty" then some .Empty else none
  apply := fun _ _ _ => none
  type := fun _ _ => none

/-! ## Unfolding lemmas for `MetaApply` -/

theorem MetaApply_TypeList (env : Env) (ts : List Ty) (fn : Ty) :
    MetaApply env (.TypeList ts) [fn] = MetaApply env fn ts := by
  rw [MetaApply]

theorem MetaApply_If_ (env : Env) (b : Bool) (t u : Ty) :
    MetaApply env (.If_ b) [t, u] = some (if b then t else u) := by
  cases b <;> simp [MetaApply]

theorem MetaApply_MetaDefer (env : Env) (c : Tmpl) (ts us : List Ty) :
    MetaApply env (.MetaDefer c ts) us =
      (If env (decide (try_ env c ts - 1 ≠ 0) || decide (us.length ≠ 0))
        .Empty (.Result c ts)).bind (_t env) := by
  rw [MetaApply, If]

theorem MetaApply_MetaIdentity (env : Env) (t : Ty) :
    MetaApply env .MetaIdentity [t] = some t := by
  rw [MetaApply]

theorem MetaApply_MetaQuote_TypeList (env : Env) (ts : List Ty) :
    MetaApply env (.MetaQuote .TypeList) ts = some (.TypeList ts) := by
  rw [MetaApply]

theorem MetaApply_MetaQuote (env : Env) (c : Tmpl) (ts : List Ty) (h : c ≠ .TypeList) :
    MetaApply env (.MetaQuote c) ts = MetaApply env (.MetaDefer c ts) [] := by
  cases c
  case TypeList => exact absurd rfl h
  all_goals
    generalize hr : MetaApply env (Ty.MetaDefer _ ts) [] = r
    rw [MetaApply]
    · exact hr
    · simp

theorem MetaApply_MetaFlip (env : Env) (fn a b : Ty) :
    MetaApply env (.MetaFlip fn) [a, b] = MetaApply env fn [b, a] := by
  rw [MetaApply]

theorem MetaApply_FoldL_ (env : Env) (fn : Ty) (ts : List Ty) :
    MetaApply env (.FoldL_ fn) ts = some (.Lambda fn ts) := by
  rw [MetaApply]

theorem MetaApply_Lambda_nil (env : Env) (fn state : Ty) :
    MetaApply env (.Lambda fn []) [state] = some state := by
  rw [MetaApply, MetaApply]

theorem MetaApply_Lambda_one (env : Env) (fn a state : Ty) (ts : List Ty)
    (h : ts.length < 3) :
    MetaApply env (.Lambda fn (a :: ts)) [state] =
      (MetaApply env fn [state, a]).bind fun s1 => MetaApply env (.Lambda fn ts) [s1] := by
  match ts, h with
  | [], _ => rw [MetaApply]; simp
  | [_], _ => rw [MetaApply]; simp
  | [_, _], _ => rw [MetaApply]; simp

theorem MetaApply_Lambda_four (env : Env) (fn a b c d state : Ty) (ts : List Ty) :
    MetaApply env (.Lambda fn (a :: b :: c :: d :: ts)) [state] =
      (MetaApply env fn [state, a]).bind fun s1 =>
      (MetaApply env fn [s1, b]).bind fun s2 =>
      (MetaApply env fn [s2, c]).bind fun s3 =>
      (MetaApply env fn [s3, d]).bind fun s4 =>
      MetaApply env (.Lambda fn ts) [s4] := by
  rw [MetaApply]

/-! ## The naive fold, and the fold as a `List` left fold -/

theorem naiveFold_eq_foldlM (env : Env) (fn : Ty) (ts : List Ty) (state : Ty) :
    naiveFold env fn ts state = ts.foldlM (step env fn) state := by
  induction ts generalizing state with
  | nil => rfl
  | cons a ts ih =>
    simp only [naiveFold, List.foldlM_cons, step, Option.bind_eq_bind]
    congr 1
    funext s1
    rw [ih]

theorem Lambda_eq_naiveFold (env : Env) (fn : Ty) :
    ∀ (ts : List Ty) (state : Ty),
      MetaApply env (.Lambda fn ts) [state] = naiveFold env fn ts state
  | [], state => by rw [MetaApply_Lambda_nil, naiveFold]
  | [a], state => by
    rw [MetaApply_Lambda_one env fn a state [] (by simp)]
    simp only [naiveFold, Lambda_eq_naiveFold env fn []]
  | [a, b], state => by
    rw [MetaApply_Lambda_one env fn a state [b] (by simp)]
    simp only [naiveFold, Lambda_eq_naiveFold env fn [b]]
  | [a, b, c], state => by
    rw [MetaApply_Lambda_one env fn a state [b, c] (by simp)]
    simp only [naiveFold, Lambda_eq_naiveFold env fn [b, c]]
  | a :: b :: c :: d :: ts, state => by
    rw [MetaApply_Lambda_four]
    simp only [naiveFold, Lambda_eq_naiveFold env fn ts]

theorem TypeReverseFold_TypeList (env : Env) (ts : List Ty) (state fn : Ty) :
    TypeReverseFold env (.TypeList ts) state fn = MetaApply env (.Lambda fn ts) [state] := by
  simp [TypeReverseFold, MetaApply_TypeList, MetaApply_FoldL_]

theorem TypeReverseFold_eq_foldlM (env : Env) (ts : List Ty) (state fn : Ty) :
    TypeReverseFold env (.TypeList ts) state fn = ts.foldlM (step env fn) state := by
  rw [TypeReverseFold_TypeList, Lambda_eq_naiveFold, naiveFold_eq_foldlM]

/-! ## Deferred instantiation -/

theorem try__of_wellFormed (env : Env) (c : Tmpl) (ts : List Ty) (r : Ty)
    (h : instantiate env c ts = some r) : try_ env c ts = 1 := by
  simp [try_, h]

theorem try__of_illFormed (env : Env) (c : Tmpl) (ts : List Ty)
    (h : instantiate env c ts = none) : try_ env c ts = 2 := by
  simp [try_, h]

theorem MetaDefer_wellFormed (env : Env) (c : Tmpl) (ts : List Ty) (r : Ty)
    (h : instantiate env c ts = some r) :
    MetaApply env (.MetaDefer c ts) [] = some r := by
  rw [MetaApply_MetaDefer, If, MetaApply_If_, try__of_wellFormed env c ts r h]
  simp [_t, h]

theorem MetaDefer_illFormed (env : Env) (c : Tmpl) (ts : List Ty)
    (h : instantiate env c ts = none) :
    MetaApply env (.MetaDefer c ts) [] = none := by
  rw [MetaApply_MetaDefer, If, MetaApply_If_, try__of_illFormed env c ts h]
  simp [_t]

theorem MetaDefer_eq_instantiate (env : Env) (c : Tmpl) (ts : List Ty) :
    MetaApply env (.MetaDefer c ts) [] = instantiate env c ts := by
  cases h : instantiate env c ts with
  | none => exact MetaDefer_illFormed env c ts h
  | some r => exact MetaDefer_wellFormed env c ts r h

theorem MetaQuote_eq_instantiate (env : Env) (c : Tmpl) (ts : List Ty) :
    MetaApply env (.MetaQuote c) ts = instantiate env c ts := by
  by_cases hc : c = .TypeList
  · subst hc
    rw [MetaApply_MetaQuote_TypeList, instantiate]
  · rw [MetaApply_MetaQuote env c ts hc, MetaDefer_eq_instantiate]

theorem step_Flip_Quote_Cons (env : Env) (state a : Ty) :
    step env (.MetaFlip (.MetaQuote .Cons)) state a = some (.Cons a state) := by
  rw [step, MetaApply_MetaFlip, MetaQuote_eq_instantiate, instantiate]

theorem foldlM_Flip_Quote_Cons (env : Env) (ts : List Ty) (state : Ty) :
    ts.foldlM (step env (.MetaFlip (.MetaQuote .Cons))) state
      = some (ts.foldl (fun acc e => Ty.Cons e acc) state) := by
  induction ts generalizing state with
  | nil => rfl
  | cons a ts ih =>
    rw [List.foldlM_cons, step_Flip_Quote_Cons]
    simpa using ih (.Cons a state)

theorem foldl_Cons_eq_consChain (ts : List Ty) (acc : List Ty) :
    ts.foldl (fun acc e => Ty.Cons e acc) (consChain acc) = consChain (ts.reverse ++ acc) := by
  induction ts generalizing acc with
  | nil => rfl
  | cons a ts ih =>
    rw [List.foldl_cons, List.reverse_cons, List.append_assoc]
    exact ih (a :: acc)

theorem TypeReverseFold_Flip_Quote_Cons (env : Env) (ts : List Ty) :
    TypeReverseFold env (.TypeList ts) Nil (.MetaFlip (.MetaQuote .Cons))
      = some (consChain ts.reverse) := by
  rw [TypeReverseFold_eq_foldlM, foldlM_Flip_Quote_Cons]
  have h := foldl_Cons_eq_consChain ts []
  simp only [consChain, List.append_nil] at h
  rw [h]

/-! ## The claims -/

/-- C1: for every `TypeList` `[e0, ..., e_{n-1}]` (any length, the empty list
included), every initial state and every class `Fn`,
`TypeReverseFold<List, State, Fn>` is the left fold of `Fn` over the elements
in stored order starting from `State`, first element first:
`Fn(...Fn(Fn(State, e0), e1)..., e_{n-1})`; it is ill-formed as soon as one of
these applications is. -/
theorem C1_TypeReverseFold_left_fold (env : Env) (ts : List Ty) (state fn : Ty) :
    TypeReverseFold env (.TypeList ts) state fn
      = ts.foldlM (fun s e => MetaApply env fn [s, e]) state :=
  TypeReverseFold_eq_foldlM env ts state fn

/-- C2: for every list length, state and `Fn`, the fold with the 4-element
unrolled `Lambda<A, B, C, D, Ts...>` case yields exactly what the naive fold
(empty case and single-element case only) yields, both at the level of
`Lambda<Ts...>::apply<State>` and of `TypeReverseFold`; in particular one is
ill-formed exactly when the other is. -/
theorem C2_unrolled_eq_naive (env : Env) (ts : List Ty) (state fn : Ty) :
    MetaApply env (.Lambda fn ts) [state] = naiveFold env fn ts state ∧
    TypeReverseFold env (.TypeList ts) state fn = naiveFold env fn ts state :=
  ⟨Lambda_eq_naiveFold env fn ts state,
   (TypeReverseFold_TypeList env ts state fn).trans (Lambda_eq_naiveFold env fn ts state)⟩

/-- C3: folding any `TypeList` from `Nil` with `MetaFlip<MetaQuote<Cons>>`
yields the `Cons` chain of the elements in reverse order, terminated by `Nil`;
for `[int, short, void, int*, short*, void*]` this is the type `E4` that
`main` asserts. -/
theorem C3_fold_Flip_Cons_reverses (env : Env) :
    (∀ ts : List Ty,
      TypeReverseFold env (.TypeList ts) Nil (.MetaFlip (.MetaQuote .Cons))
        = some (consChain ts.reverse)) ∧
    TypeReverseFold env
      (.TypeList [.prim "int", .prim "short", .prim "void",
        .ptr (.prim "int"), .ptr (.prim "short"), .ptr (.prim "void")])
      Nil (.MetaFlip (.MetaQuote .Cons))
      = some (.Cons (.ptr (.prim "void")) (.Cons (.ptr (.prim "short"))
          (.Cons (.ptr (.prim "int")) (.Cons (.prim "void")
            (.Cons (.prim "short") (.Cons (.prim "int") Nil)))))) :=
  ⟨TypeReverseFold_Flip_Quote_Cons env, TypeReverseFold_Flip_Quote_Cons env _⟩

/-- C4 (as stated, refuted): with `Fn = MetaQuote<Cons>`, `X = Nil` and the
list `[int, short, void]`, the fold is not
`MetaApply<Fn, MetaApply<Fn, MetaApply<Fn, X, C>, B>, A>`. -/
theorem C4_counterexample :
    TypeReverseFold Env.empty
        (.TypeList [.prim "int", .prim "short", .prim "void"]) Nil (.MetaQuote .Cons)
      ≠ (MetaApply Env.empty (.MetaQuote .Cons) [Nil, .prim "void"]).bind fun s1 =>
        (MetaApply Env.empty (.MetaQuote .Cons) [s1, .prim "short"]).bind fun s2 =>
        MetaApply Env.empty (.MetaQuote .Cons) [s2, .prim "int"] := by
  simp [TypeReverseFold_eq_foldlM, step, MetaQuote_eq_instantiate, instantiate]

/-- C4 (amended): `TypeReverseFold<TypeList<A, B, C>, X, Fn>` is
`MetaApply<Fn, MetaApply<Fn, MetaApply<Fn, X, A>, B>, C>`: the state is
combined with the first element `A` first, then `B`, then `C`. -/
theorem C4_fold_three_in_stored_order (env : Env) (A B C X fn : Ty) :
    TypeReverseFold env (.TypeList [A, B, C]) X fn
      = (MetaApply env fn [X, A]).bind fun s1 =>
        (MetaApply env fn [s1, B]).bind fun s2 =>
        MetaApply env fn [s2, C] := by
  rw [TypeReverseFold_TypeList, Lambda_eq_naiveFold]
  simp only [naiveFold]
  congr 1
  funext s1
  congr 1
  funext s2
  cases MetaApply env fn [s2, C] <;> rfl

/-- C5 (as stated, refuted): `Cons<>` is not well-formed, yet
`MetaApply<MetaDefer<Cons>>` does not resolve to `Empty`. -/
theorem C5_counterexample :
    ¬ (instantiate Env.empty .Cons [] = none →
        MetaApply Env.empty (.MetaDefer .Cons []) [] = some .Empty) := by
  intro h
  have h2 := h rfl
  rw [MetaDefer_illFormed Env.empty .Cons [] rfl] at h2
  exact absurd h2 (by simp)

/-- C5 (amended): if `C<Ts...>` is not well-formed, the conditional inside
`MetaDefer<C, Ts...>::apply<>` selects `Empty`, but `Empty` declares no member
`type`, so `MetaApply<MetaDefer<C, Ts...>>` is ill-formed: it has no result,
and in particular does not resolve to `Empty`. -/
theorem C5_illFormed_selects_Empty_without_type (env : Env) (c : Tmpl) (ts : List Ty)
    (h : instantiate env c ts = none) :
    If env (decide (try_ env c ts - 1 ≠ 0) || decide (([] : List Ty).length ≠ 0))
        .Empty (.Result c ts) = some .Empty ∧
    _t env .Empty = none ∧
    MetaApply env (.MetaDefer c ts) [] = none ∧
    MetaApply env (.MetaDefer c ts) [] ≠ some .Empty := by
  refine ⟨?_, rfl, MetaDefer_illFormed env c ts h, ?_⟩
  · rw [If, MetaApply_If_, try__of_illFormed env c ts h]
    rfl
  · rw [MetaDefer_illFormed env c ts h]
    simp

theorem C5_illFormed_selects_Empty_without_type_witness :
    instantiate Env.empty .Cons [.prim "int", .prim "short", .prim "void"] = none ∧
    MetaApply Env.empty (.MetaDefer .Cons [.prim "int", .prim "short", .prim "void"]) []
      = none :=
  ⟨rfl, (C5_illFormed_selects_Empty_without_type Env.empty .Cons
    [.prim "int", .prim "short", .prim "void"] rfl).2.2.1⟩

/-- C6: `MetaApply<MetaDefer<C, Ts...>>` is ill-formed exactly when `C<Ts...>`
is ill-formed; equivalently it is well-formed if and only if `C<Ts...>` is. -/
theorem C6_MetaDefer_illFormed_iff (env : Env) (c : Tmpl) (ts : List Ty) :
    (MetaApply env (.MetaDefer c ts) [] = none ↔ instantiate env c ts = none) ∧
    ((MetaApply env (.MetaDefer c ts) []).isSome ↔ (instantiate env c ts).isSome) := by
  rw [MetaDefer_eq_instantiate]
  exact ⟨Iff.rfl, Iff.rfl⟩

/-- C7: whenever `C<Ts...>` is well-formed (for any argument list, the empty
one included), `MetaApply<MetaDefer<C, Ts...>>` is well-formed and denotes
`C<Ts...>`. -/
theorem C7_MetaDefer_wellFormed (env : Env) (c : Tmpl) (ts : List Ty) (r : Ty)
    (h : instantiate env c ts = some r) :
    MetaApply env (.MetaDefer c ts) [] = some r :=
  MetaDefer_wellFormed env c ts r h

theorem C7_MetaDefer_wellFormed_witness :
    instantiate Env.empty .TypeList [] = some (.TypeList []) ∧
    MetaApply Env.empty (.MetaDefer .TypeList []) [] = some (.TypeList []) :=
  ⟨rfl, C7_MetaDefer_wellFormed Env.empty .TypeList [] (.TypeList []) rfl⟩

/-- C8 (Quote identity law): whenever `C<Ts...>` is well-formed,
`MetaApply<MetaQuote<C>, Ts...>` denotes `C<Ts...>`. -/
theorem C8_MetaQuote_identity (env : Env) (c : Tmpl) (ts : List Ty) (r : Ty)
    (h : instantiate env c ts = some r) :
    MetaApply env (.MetaQuote c) ts = some r := by
  rw [MetaQuote_eq_instantiate, h]

theorem C8_MetaQuote_identity_witness :
    instantiate Env.empty .Cons [.prim "int", Nil] = some (.Cons (.prim "int") Nil) ∧
    MetaApply Env.empty (.MetaQuote .Cons) [.prim "int", Nil]
      = some (.Cons (.prim "int") Nil) :=
  ⟨rfl, C8_MetaQuote_identity Env.empty .Cons [.prim "int", Nil] (.Cons (.prim "int") Nil) rfl⟩

/-- C9 (snoc law): folding `[a0, ..., an]` is folding `[a0, ..., a(n-1)]` and
then applying `Fn` once more, to that result and `an`, whatever the length of
the list modulo 4. -/
theorem C9_fold_snoc (env : Env) (ts : List Ty) (a state fn : Ty) :
    TypeReverseFold env (.TypeList (ts ++ [a])) state fn
      = (TypeReverseFold env (.TypeList ts) state fn).bind fun r =>
          MetaApply env fn [r, a] := by
  rw [TypeReverseFold_eq_foldlM, TypeReverseFold_eq_foldlM, List.foldlM_append]
  simp only [Option.bind_eq_bind]
  congr 1
  funext r
  simp [step]

/-- C10 (fold base case): for every state and every class `Fn`, whatever
`Fn::apply` does, `TypeReverseFold<TypeList<>, State, Fn>` is `State`. -/
theorem C10_fold_empty (env : Env) (state fn : Ty) :
    TypeReverseFold env (.TypeList []) state fn = some state := by
  rw [TypeReverseFold_TypeList, MetaApply_Lambda_nil]

/-! ## Selection of the `Lambda` specialisations -/

theorem LambdaTrace_eq_replicate :
    ∀ ts : List Ty,
      LambdaTrace ts = List.replicate (ts.length / 4) LambdaCase.unrolled
        ++ List.replicate (ts.length % 4) LambdaCase.single ++ [LambdaCase.primary]
  | [] => by simp [LambdaTrace]
  | [_] => by simp [LambdaTrace]
  | [_, _] => by simp [LambdaTrace, List.replicate]
  | [_, _, _] => by simp [LambdaTrace, List.replicate]
  | _ :: _ :: _ :: _ :: ts => by
    have ih := LambdaTrace_eq_replicate ts
    have hlen : ∀ (a b c d : Ty), (a :: b :: c :: d :: ts).length = ts.length + 4 := by
      intros
      simp
    rw [LambdaTrace, ih, hlen, Nat.add_div_right _ (by decide : 0 < 4), Nat.add_mod_right,
      List.replicate_succ]
    simp

theorem LambdaSelect_unrolled_iff (ts : List Ty) :
    LambdaSelect ts = .unrolled ↔ 4 ≤ ts.length := by
  match ts with
  | [] => simp [LambdaSelect]
  | [_] => simp [LambdaSelect]
  | [_, _] => simp [LambdaSelect]
  | [_, _, _] => simp [LambdaSelect]
  | _ :: _ :: _ :: _ :: _ => simp [LambdaSelect]

theorem LambdaSelect_single_iff (ts : List Ty) :
    LambdaSelect ts = .single ↔ 1 ≤ ts.length ∧ ts.length < 4 := by
  match ts with
  | [] => simp [LambdaSelect]
  | [_] => simp [LambdaSelect]
  | [_, _] => simp [LambdaSelect]
  | [_, _, _] => simp [LambdaSelect]
  | _ :: _ :: _ :: _ :: _ => simp [LambdaSelect]

theorem LambdaSelect_primary_iff (ts : List Ty) :
    LambdaSelect ts = .primary ↔ ts = [] := by
  match ts with
  | [] => simp [LambdaSelect]
  | [_] => simp [LambdaSelect]
  | [_, _] => simp [LambdaSelect]
  | [_, _, _] => simp [LambdaSelect]
  | _ :: _ :: _ :: _ :: _ => simp [LambdaSelect]

theorem LambdaTrace_head (ts : List Ty) :
    (LambdaTrace ts).head? = some (LambdaSelect ts) := by
  match ts with
  | [] => simp [LambdaSelect, LambdaTrace]
  | [_] => simp [LambdaSelect, LambdaTrace]
  | [_, _] => simp [LambdaSelect, LambdaTrace]
  | [_, _, _] => simp [LambdaSelect, LambdaTrace]
  | _ :: _ :: _ :: _ :: _ => simp [LambdaSelect, LambdaTrace]

theorem MetaApply_Lambda_of_unrolled (env : Env) (fn state : Ty) (ts : List Ty)
    (h : LambdaSelect ts = .unrolled) :
    ∃ a b c d rest, ts = a :: b :: c :: d :: rest ∧
      LambdaTrace ts = .unrolled :: LambdaTrace rest ∧
      MetaApply env (.Lambda fn ts) [state] =
        (MetaApply env fn [state, a]).bind fun s1 =>
        (MetaApply env fn [s1, b]).bind fun s2 =>
        (MetaApply env fn [s2, c]).bind fun s3 =>
        (MetaApply env fn [s3, d]).bind fun s4 =>
        MetaApply env (.Lambda fn rest) [s4] := by
  match ts, h with
  | a :: b :: c :: d :: rest, _ =>
    exact ⟨a, b, c, d, rest, rfl, by rw [LambdaTrace], MetaApply_Lambda_four env fn a b c d state rest⟩

theorem MetaApply_Lambda_of_single (env : Env) (fn state : Ty) (ts : List Ty)
    (h : LambdaSelect ts = .single) :
    ∃ a rest, ts = a :: rest ∧
      LambdaTrace ts = .single :: LambdaTrace rest ∧
      MetaApply env (.Lambda fn ts) [state] =
        (MetaApply env fn [state, a]).bind fun s1 =>
        MetaApply env (.Lambda fn rest) [s1] := by
  match ts, h with
  | [a], _ =>
    exact ⟨a, [], rfl, by simp [LambdaTrace], MetaApply_Lambda_one env fn a state [] (by simp)⟩
  | [a, b], _ =>
    exact ⟨a, [b], rfl, by simp [LambdaTrace], MetaApply_Lambda_one env fn a state [b] (by simp)⟩
  | [a, b, c], _ =>
    exact ⟨a, [b, c], rfl, by simp [LambdaTrace],
      MetaApply_Lambda_one env fn a state [b, c] (by simp)⟩

theorem MetaApply_Lambda_of_primary (env : Env) (fn state : Ty) (ts : List Ty)
    (h : LambdaSelect ts = .primary) :
    LambdaTrace ts = [.primary] ∧
    MetaApply env (.Lambda fn ts) [state] = MetaApply env .MetaIdentity [state] := by
  rw [(LambdaSelect_primary_iff ts).mp h, MetaApply_Lambda_nil, MetaApply_MetaIdentity]
  exact ⟨rfl, rfl⟩

theorem LambdaApplyTraced_nil (env : Env) (fn state : Ty) :
    LambdaApplyTraced env fn [] state = some (state, [(LambdaCase.primary, 0)]) := by
  rw [LambdaApplyTraced, MetaApply_MetaIdentity]
  rfl

theorem LambdaApplyTraced_one (env : Env) (fn a state : Ty) (ts : List Ty)
    (h : ts.length < 3) :
    LambdaApplyTraced env fn (a :: ts) state =
      (MetaApply env fn [state, a]).bind fun s1 =>
      (LambdaApplyTraced env fn ts s1).map fun p =>
        (p.1, (LambdaCase.single, ts.length + 1) :: p.2) := by
  match ts, h with
  | [], _ => rw [LambdaApplyTraced]; simp
  | [_], _ => rw [LambdaApplyTraced]; simp
  | [_, _], _ => rw [LambdaApplyTraced]; simp

theorem LambdaApplyTraced_four (env : Env) (fn a b c d state : Ty) (ts : List Ty) :
    LambdaApplyTraced env fn (a :: b :: c :: d :: ts) state =
      (MetaApply env fn [state, a]).bind fun s1 =>
      (MetaApply env fn [s1, b]).bind fun s2 =>
      (MetaApply env fn [s2, c]).bind fun s3 =>
      (MetaApply env fn [s3, d]).bind fun s4 =>
      (LambdaApplyTraced env fn ts s4).map fun p =>
        (p.1, (LambdaCase.unrolled, ts.length + 4) :: p.2) := by
  rw [LambdaApplyTraced]

theorem LambdaEvents_one (a : Ty) (ts : List Ty) (h : ts.length < 3) :
    LambdaEvents (a :: ts) = (LambdaCase.single, ts.length + 1) :: LambdaEvents ts := by
  match ts, h with
  | [], _ => rw [LambdaEvents]; simp
  | [_], _ => rw [LambdaEvents]; simp
  | [_, _], _ => rw [LambdaEvents]; simp

theorem LambdaEvents_four (a b c d : Ty) (ts : List Ty) :
    LambdaEvents (a :: b :: c :: d :: ts)
      = (LambdaCase.unrolled, ts.length + 4) :: LambdaEvents ts := by
  rw [LambdaEvents]

theorem LambdaApplyTraced_single_step (env : Env) (fn a state : Ty) (ts : List Ty)
    (h : ts.length < 3)
    (ih : ∀ s1, LambdaApplyTraced env fn ts s1
      = (MetaApply env (.Lambda fn ts) [s1]).map fun r => (r, LambdaEvents ts)) :
    LambdaApplyTraced env fn (a :: ts) state
      = (MetaApply env (.Lambda fn (a :: ts)) [state]).map fun r =>
          (r, LambdaEvents (a :: ts)) := by
  rw [MetaApply_Lambda_one env fn a state ts h, LambdaApplyTraced_one env fn a state ts h,
    LambdaEvents_one a ts h]
  cases MetaApply env fn [state, a] with
  | none => rfl
  | some s1 =>
    simp only [Option.some_bind, ih s1, Option.map_map]
    rfl

theorem LambdaApplyTraced_eq (env : Env) (fn : Ty) :
    ∀ (ts : List Ty) (state : Ty),
      LambdaApplyTraced env fn ts state
        = (MetaApply env (.Lambda fn ts) [state]).map fun r => (r, LambdaEvents ts)
  | [], state => by
    rw [MetaApply_Lambda_nil, LambdaApplyTraced_nil]
    rfl
  | [a], state =>
    LambdaApplyTraced_single_step env fn a state [] (by simp)
      (LambdaApplyTraced_eq env fn [])
  | [a, b], state =>
    LambdaApplyTraced_single_step env fn a state [b] (by simp)
      (LambdaApplyTraced_eq env fn [b])
  | [a, b, c], state =>
    LambdaApplyTraced_single_step env fn a state [b, c] (by simp)
      (LambdaApplyTraced_eq env fn [b, c])
  | a :: b :: c :: d :: ts, state => by
    rw [MetaApply_Lambda_four, LambdaApplyTraced_four, LambdaEvents_four]
    cases MetaApply env fn [state, a] with
    | none => rfl
    | some s1 =>
      cases h2 : MetaApply env fn [s1, b] with
      | none => simp [h2]
      | some s2 =>
        cases h3 : MetaApply env fn [s2, c] with
        | none => simp [h2, h3]
        | some s3 =>
          cases h4 : MetaApply env fn [s3, d] with
          | none => simp [h2, h3, h4]
          | some s4 =>
            simp only [Option.some_bind, h2, h3, h4,
              LambdaApplyTraced_eq env fn ts s4, Option.map_map]
            rfl

theorem LambdaEvents_map_fst :
    ∀ ts : List Ty, (LambdaEvents ts).map Prod.fst = LambdaTrace ts
  | [] => by simp [LambdaEvents, LambdaTrace]
  | [_] => by simp [LambdaEvents, LambdaTrace]
  | [_, _] => by simp [LambdaEvents, LambdaTrace]
  | [_, _, _] => by simp [LambdaEvents, LambdaTrace]
  | a :: b :: c :: d :: ts => by
    rw [LambdaEvents_four, LambdaTrace, List.map_cons, LambdaEvents_map_fst ts]

theorem LambdaEvents_head :
    ∀ ts : List Ty, (LambdaEvents ts).head?.map Prod.snd = some ts.length
  | [] => by simp [LambdaEvents]
  | [_] => by simp [LambdaEvents]
  | [_, _] => by simp [LambdaEvents]
  | [_, _, _] => by simp [LambdaEvents]
  | a :: b :: c :: d :: ts => by
    rw [LambdaEvents_four]
    simp

theorem LambdaEvents_sizes :
    ∀ (ts : List Ty) (e : LambdaCase × Nat), e ∈ LambdaEvents ts →
      (e.1 = .unrolled ↔ 4 ≤ e.2) ∧ (e.1 = .single ↔ 1 ≤ e.2 ∧ e.2 < 4) ∧
      (e.1 = .primary ↔ e.2 = 0)
  | [], e, he => by
    simp [LambdaEvents] at he
    subst he
    simp
  | [_], e, he => by
    simp [LambdaEvents] at he
    rcases he with he | he <;> subst he <;> simp
  | [_, _], e, he => by
    simp [LambdaEvents] at he
    rcases he with he | he | he <;> subst he <;> simp
  | [_, _, _], e, he => by
    simp [LambdaEvents] at he
    rcases he with he | he | he | he <;> subst he <;> simp
  | a :: b :: c :: d :: ts, e, he => by
    rw [LambdaEvents_four, List.mem_cons] at he
    rcases he with he | he
    · subst he
      simp
    · exact LambdaEvents_sizes ts e he

theorem LambdaApplyTraced_events (env : Env) (fn state : Ty) (ts : List Ty)
    (r : Ty) (tr : List (LambdaCase × Nat))
    (h : LambdaApplyTraced env fn ts state = some (r, tr)) :
    MetaApply env (.Lambda fn ts) [state] = some r ∧ tr = LambdaEvents ts := by
  rw [LambdaApplyTraced_eq] at h
  cases hm : MetaApply env (.Lambda fn ts) [state] with
  | none => rw [hm] at h; cases h
  | some r2 =>
    rw [hm] at h
    simp only [Option.map_some', Option.some.injEq, Prod.mk.injEq] at h
    exact ⟨by rw [h.1], h.2.symm⟩

theorem LambdaApplyTraced_erase (env : Env) (fn state : Ty) (ts : List Ty) :
    (LambdaApplyTraced env fn ts state).map Prod.fst
      = MetaApply env (.Lambda fn ts) [state] := by
  rw [LambdaApplyTraced_eq, Option.map_map]
  cases MetaApply env (.Lambda fn ts) [state] <;> rfl

theorem MetaDefer_nonempty_args (env : Env) (c : Tmpl) (ts : List Ty) (u : Ty) (us : List Ty) :
    MetaApply env (.MetaDefer c ts) (u :: us) = none := by
  rw [MetaApply_MetaDefer, If, MetaApply_If_]
  simp [_t]

theorem instantiate_ne_Empty_of_not_named (env : Env) (c : Tmpl) (ts : List Ty) (r : Ty)
    (hc : ∀ n, c ≠ .named n) (h : instantiate env c ts = some r) : r ≠ .Empty := by
  intro hr
  subst hr
  cases c with
  | named n => exact hc n rfl
  | TypeList => simp [instantiate] at h
  | Cons =>
    match ts, h with
    | [_], h => simp [instantiate] at h
    | [_, _], h => simp [instantiate] at h
  | MetaFlip =>
    match ts, h with
    | [_], h => simp [instantiate] at h
  | FoldL_ =>
    match ts, h with
    | [_], h => simp [instantiate] at h

theorem TypeReverseFold_append (env : Env) (xs ys : List Ty) (state fn : Ty) :
    TypeReverseFold env (.TypeList (xs ++ ys)) state fn
      = (TypeReverseFold env (.TypeList xs) state fn).bind fun r =>
          TypeReverseFold env (.TypeList ys) r fn := by
  rw [TypeReverseFold_eq_foldlM, TypeReverseFold_eq_foldlM, List.foldlM_append]
  simp only [Option.bind_eq_bind]
  congr 1
  funext r
  rw [TypeReverseFold_eq_foldlM]

/-- C11 (fold single step): for a one-element list `[A]`,
`TypeReverseFold<TypeList<A>, S, Fn>` is `MetaApply<Fn, S, A>`, the state
being the first argument and the element the second. -/
theorem C11_fold_singleton (env : Env) (A state fn : Ty) :
    TypeReverseFold env (.TypeList [A]) state fn = MetaApply env fn [state, A] := by
  rw [TypeReverseFold_TypeList, Lambda_eq_naiveFold]
  simp only [naiveFold]
  cases MetaApply env fn [state, A] <;> rfl

/-- C12 (Flip law): `MetaApply<MetaFlip<Fn>, A, B>` is `MetaApply<Fn, B, A>`
for every `Fn`, `A`, `B`; in particular one is ill-formed exactly when the
other is. -/
theorem C12_MetaFlip_law (env : Env) (fn A B : Ty) :
    MetaApply env (.MetaFlip fn) [A, B] = MetaApply env fn [B, A] ∧
    (MetaApply env (.MetaFlip fn) [A, B] = none ↔ MetaApply env fn [B, A] = none) := by
  rw [MetaApply_MetaFlip]
  exact ⟨rfl, Iff.rfl⟩

/-- C13 (conditional selector law): `If<true, X, Y>` is `X` and
`If<false, X, Y>` is `Y`, for all `X` and `Y`. -/
theorem C13_If_law (env : Env) (X Y : Ty) :
    If env true X Y = some X ∧ If env false X Y = some Y := by
  constructor
  · rw [If, MetaApply_If_]
    rfl
  · rw [If, MetaApply_If_]
    rfl

/-- C14: `TypeList<Ts...>::apply<Fn>` is `MetaApply<Fn, Ts...>`: `Fn` receives
exactly the elements of the list, in stored order. -/
theorem C14_TypeList_apply (env : Env) (ts : List Ty) (fn : Ty) :
    MetaApply env (.TypeList ts) [fn] = MetaApply env fn ts :=
  MetaApply_TypeList env ts fn

/-- C15: if `C<Ts...>` is not well-formed, `MetaApply<MetaQuote<C>, Ts...>` is
ill-formed: it has no result, neither `Empty` nor any other type. -/
theorem C15_MetaQuote_illFormed (env : Env) (c : Tmpl) (ts : List Ty)
    (h : instantiate env c ts = none) :
    MetaApply env (.MetaQuote c) ts = none ∧
    ∀ r : Ty, MetaApply env (.MetaQuote c) ts ≠ some r := by
  rw [MetaQuote_eq_instantiate, h]
  exact ⟨rfl, fun r hr => by cases hr⟩

theorem C15_MetaQuote_illFormed_witness :
    instantiate Env.empty .Cons [] = none ∧
    MetaApply Env.empty (.MetaQuote .Cons) [] = none :=
  ⟨rfl, (C15_MetaQuote_illFormed Env.empty .Cons [] rfl).1⟩

/-- C16: for every argument list, the `MetaQuote<TypeList>` specialisation
yields `TypeList<Ts...>`, and so does the general path
`MetaApply<MetaDefer<TypeList, Ts...>>`, which is therefore always
well-formed. -/
theorem C16_MetaQuote_TypeList_elision (env : Env) (ts : List Ty) :
    MetaApply env (.MetaQuote .TypeList) ts = some (.TypeList ts) ∧
    MetaApply env (.MetaDefer .TypeList ts) [] = some (.TypeList ts) ∧
    MetaApply env (.MetaQuote .TypeList) ts = MetaApply env (.MetaDefer .TypeList ts) [] := by
  rw [MetaApply_MetaQuote_TypeList, MetaDefer_eq_instantiate, instantiate]
  exact ⟨rfl, rfl, rfl⟩

/-- C17: the resolution of `Lambda<Ts...>::apply<State>` for a pack of `n`
types, instrumented to report each `Lambda` declaration whose `apply` it
resolves, computes the same type as the fold (and is well-formed exactly when
the fold is), and whenever it is well-formed it has resolved the unrolled
specialisation `n / 4` times, then the single-element specialisation `n % 4`
times, then the primary template once.  It starts with the whole pack, and
each step is the unrolled one exactly when its pack holds at least four types,
the single-element one exactly when it holds one to three, and the primary
template exactly when it holds none. -/
theorem C17_Lambda_recursion_steps (env : Env) (fn state : Ty) (ts : List Ty) :
    (LambdaApplyTraced env fn ts state).map Prod.fst
      = MetaApply env (.Lambda fn ts) [state] ∧
    (LambdaApplyTraced env fn ts state).map Prod.fst
      = TypeReverseFold env (.TypeList ts) state fn ∧
    ∀ (r : Ty) (tr : List (LambdaCase × Nat)),
      LambdaApplyTraced env fn ts state = some (r, tr) →
        tr.map Prod.fst = List.replicate (ts.length / 4) LambdaCase.unrolled
          ++ List.replicate (ts.length % 4) LambdaCase.single ++ [LambdaCase.primary] ∧
        tr.head?.map Prod.snd = some ts.length ∧
        ∀ e ∈ tr, (e.1 = .unrolled ↔ 4 ≤ e.2) ∧ (e.1 = .single ↔ 1 ≤ e.2 ∧ e.2 < 4) ∧
          (e.1 = .primary ↔ e.2 = 0) := by
  refine ⟨LambdaApplyTraced_erase env fn state ts, ?_, ?_⟩
  · rw [TypeReverseFold_TypeList]
    exact LambdaApplyTraced_erase env fn state ts
  · intro r tr h
    obtain ⟨_, htr⟩ := LambdaApplyTraced_events env fn state ts r tr h
    subst htr
    exact ⟨(LambdaEvents_map_fst ts).trans (LambdaTrace_eq_replicate ts),
      LambdaEvents_head ts, LambdaEvents_sizes ts⟩

theorem C17_Lambda_recursion_steps_witness :
    LambdaApplyTraced Env.empty (.MetaFlip (.MetaQuote .Cons))
        [.prim "int", .prim "short", .prim "void",
          .ptr (.prim "int"), .ptr (.prim "short"), .ptr (.prim "void")] Nil
      = some (.Cons (.ptr (.prim "void")) (.Cons (.ptr (.prim "short"))
          (.Cons (.ptr (.prim "int")) (.Cons (.prim "void")
            (.Cons (.prim "short") (.Cons (.prim "int") Nil))))),
          [(.unrolled, 6), (.single, 2), (.single, 1), (.primary, 0)]) ∧
    [LambdaCase.unrolled, .single, .single, .primary]
      = List.replicate (6 / 4) LambdaCase.unrolled
          ++ List.replicate (6 % 4) LambdaCase.single ++ [LambdaCase.primary] := by
  have h : LambdaApplyTraced Env.empty (.MetaFlip (.MetaQuote .Cons))
        [.prim "int", .prim "short", .prim "void",
          .ptr (.prim "int"), .ptr (.prim "short"), .ptr (.prim "void")] Nil
      = some (.Cons (.ptr (.prim "void")) (.Cons (.ptr (.prim "short"))
          (.Cons (.ptr (.prim "int")) (.Cons (.prim "void")
            (.Cons (.prim "short") (.Cons (.prim "int") Nil))))),
          [(.unrolled, 6), (.single, 2), (.single, 1), (.primary, 0)]) := by
    simp [LambdaApplyTraced, MetaApply_MetaFlip, MetaQuote_eq_instantiate, instantiate,
      MetaApply_MetaIdentity]
  exact ⟨h, ((C17_Lambda_recursion_steps Env.empty (.MetaFlip (.MetaQuote .Cons)) Nil
    [.prim "int", .prim "short", .prim "void",
      .ptr (.prim "int"), .ptr (.prim "short"), .ptr (.prim "void")]).2.2 _ _ h).1⟩

/-- C18 (as stated, refuted): with the alias template
`template <class...> using AlwaysEmpty = Empty;`, `AlwaysEmpty<int>` is
well-formed and `MetaApply<MetaDefer<AlwaysEmpty, int>>` is `Empty`. -/
theorem C18_counterexample :
    instantiate Env.aliasEmpty (.named "AlwaysEmpty") [.prim "int"] = some .Empty ∧
    MetaApply Env.aliasEmpty (.MetaDefer (.named "AlwaysEmpty") [.prim "int"]) []
      = some .Empty := by
  have h : instantiate Env.aliasEmpty (.named "AlwaysEmpty") [.prim "int"] = some .Empty := by
    simp [instantiate, Env.aliasEmpty]
  exact ⟨h, MetaDefer_wellFormed _ _ _ _ h⟩

/-- C18 (amended): when `C<Ts...>` is well-formed and denotes `r`,
`MetaApply<MetaDefer<C, Ts...>>` is `r`; it differs from `Empty` whenever `C`
is one of the class templates of the file (`TypeList`, `Cons`, `MetaFlip`,
`FoldL_`), and for any other constructor it is `Empty` exactly when `C<Ts...>`
itself denotes `Empty`. -/
theorem C18_Empty_only_from_constructor (env : Env) (c : Tmpl) (ts : List Ty) (r : Ty)
    (h : instantiate env c ts = some r) :
    MetaApply env (.MetaDefer c ts) [] = some r ∧
    ((∀ n, c ≠ .named n) → MetaApply env (.MetaDefer c ts) [] ≠ some .Empty) ∧
    (MetaApply env (.MetaDefer c ts) [] = some .Empty ↔ r = .Empty) := by
  rw [MetaDefer_wellFormed env c ts r h]
  refine ⟨rfl, fun hc hr => ?_, ?_⟩
  · exact instantiate_ne_Empty_of_not_named env c ts r hc h (Option.some.inj hr)
  · exact ⟨fun hr => Option.some.inj hr, fun hr => by rw [hr]⟩

theorem C18_Empty_only_from_constructor_witness :
    instantiate Env.empty .Cons [.prim "int"] = some (.Cons (.prim "int") Nil) ∧
    MetaApply Env.empty (.MetaDefer .Cons [.prim "int"]) [] ≠ some .Empty :=
  ⟨rfl, (C18_Empty_only_from_constructor Env.empty .Cons [.prim "int"]
    (.Cons (.prim "int") Nil) rfl).2.1 (fun n hn => by cases hn)⟩

/-- C19: `MetaDefer<C, Ts...>::apply<Us...>` with a non-empty `Us...` is
ill-formed, whatever `C` and `Ts...` are, even when `C<Ts...>` is well-formed:
it has no result, so it never yields `C<Ts...>`. -/
theorem C19_MetaDefer_rejects_arguments (env : Env) (c : Tmpl) (ts : List Ty)
    (u : Ty) (us : List Ty) :
    MetaApply env (.MetaDefer c ts) (u :: us) = none ∧
    ∀ r : Ty, MetaApply env (.MetaDefer c ts) (u :: us) ≠ some r := by
  rw [MetaDefer_nonempty_args]
  exact ⟨rfl, fun r hr => by cases hr⟩

/-- C20: the fold of `Xs ++ Ys` from `S` is the fold of `Ys` from the fold of
`Xs` from `S`, for lists of any lengths; it is ill-formed when the fold of
`Xs` already is. -/
theorem C20_fold_append (env : Env) (xs ys : List Ty) (state fn : Ty) :
    TypeReverseFold env (.TypeList (xs ++ ys)) state fn
      = (TypeReverseFold env (.TypeList xs) state fn).bind fun r =>
          TypeReverseFold env (.TypeList ys) r fn :=
  TypeReverseFold_append env xs ys state fn

end detail
end folly
